import Mathlib

/-!
Shallow embedding of `src/main.py` (reznakt/python-automata): finite automata
(DFA / NFA / epsilon-NFA), type classification, epsilon-transition removal,
subset-construction determinization and deterministic word simulation.

Modelling conventions:
* Python values appearing as states / symbols are embedded in one inductive
  type `V`.  The sentinel `Symbol` objects `EPSILON`, `EMPTY`, `START` have
  identity-based equality in Python; they are modelled as dedicated
  constructors, distinct from every user value by construction.
  The fresh `Symbol(str(self))` created by `SubsetState.to_symbol` is
  modelled as `V.subsetSym` applied to the (canonically ordered) list of
  underlying states; within a single subset construction run distinct
  composite states have distinct underlying sets, so this labelling is
  injective exactly like the Python identity labels.
* Python `set` values are modelled as `List V` carrying set semantics:
  membership is list membership, the size of the represented set is
  `List.dedup.length`, emptiness is `= []`.  All iteration orders in the
  source are observationally irrelevant (they affect only which of several
  equal results is produced), so the list representation is faithful.
* Python `dict` transition tables are modelled as association lists with
  first-match lookup; dictionary writes go through `insertT`, which
  replaces an existing binding (Python's overwrite semantics).
* Errors (`ValueError` at construction, `ValueError` during `compute`) are
  modelled with `Except`; the two distinct runtime failures of `compute` -
  the `KeyError`-triggered "Illegal transition (state, symbol)" message and
  the bare unpacking `ValueError` - are separate constructors of `CErr`.
-/

/-- Embedded universe of Python values used as states and symbols: user
integers, user strings, the three identity-based sentinel `Symbol`s, and the
fresh `Symbol` labels minted by `SubsetState.to_symbol` during
determinization (keyed by the composite's underlying state list). -/
inductive V where
  | nat : Nat → V
  | str : String → V
  | epsilon : V
  | empty : V
  | start : V
  | subsetSym : List V → V

mutual

/-- Boolean equality on embedded values (nested recursion through the
composite-label lists). -/
def V.beq : V → V → Bool
  | .nat x, .nat y => x == y
  | .str x, .str y => x == y
  | .epsilon, .epsilon => true
  | .empty, .empty => true
  | .start, .start => true
  | .subsetSym l, .subsetSym m => V.beqList l m
  | _, _ => false

/-- Boolean equality on lists of embedded values. -/
def V.beqList : List V → List V → Bool
  | [], [] => true
  | a :: l, b :: m => V.beq a b && V.beqList l m
  | _, _ => false

end

mutual

theorem V.beq_iff : ∀ (a b : V), V.beq a b = true ↔ a = b
  | .nat x, b => by cases b <;> simp [V.beq]
  | .str x, b => by cases b <;> simp [V.beq]
  | .epsilon, b => by cases b <;> simp [V.beq]
  | .empty, b => by cases b <;> simp [V.beq]
  | .start, b => by cases b <;> simp [V.beq]
  | .subsetSym l, b => by
      cases b <;> simp [V.beq]
      exact V.beqList_iff l _

theorem V.beqList_iff : ∀ (l m : List V), V.beqList l m = true ↔ l = m
  | [], [] => by simp [V.beqList]
  | [], _ :: _ => by simp [V.beqList]
  | _ :: _, [] => by simp [V.beqList]
  | a :: l, b :: m => by
      simp [V.beqList, Bool.and_eq_true, V.beq_iff a b, V.beqList_iff l m]

end

instance : DecidableEq V := fun a b => decidable_of_iff (V.beq a b = true) (V.beq_iff a b)

instance {ε α : Type} [DecidableEq ε] [DecidableEq α] : DecidableEq (Except ε α) := fun x y =>
  match x, y with
  | .ok a, .ok b => if h : a = b then .isTrue (by rw [h]) else .isFalse (by simp [h])
  | .error a, .error b => if h : a = b then .isTrue (by rw [h]) else .isFalse (by simp [h])
  | .ok _, .error _ => .isFalse (by simp)
  | .error _, .ok _ => .isFalse (by simp)

/-- Transition table: association list from (state, symbol) keys to
destination-set values, embedding the Python `dict` of `set`s. -/
abbrev TransL := List ((V × V) × List V)

/-- First-match association-list lookup, embedding Python `dict.__getitem__`
(`none` embeds a `KeyError`). -/
def lookupT : TransL → (V × V) → Option (List V)
  | [], _ => none
  | p :: ts, k => if p.1 = k then some p.2 else lookupT ts k

/-- Lookup with empty-set default, embedding `dict.get(key, set())`. -/
def getD (ts : TransL) (k : V × V) : List V := (lookupT ts k).getD []

/-- Dictionary write with overwrite semantics, embedding
`dict.__setitem__`. -/
def insertT (ts : TransL) (k : V × V) (v : List V) : TransL :=
  if ts.any (fun p => p.1 = k) then
    ts.map (fun p => if p.1 = k then (k, v) else p)
  else ts ++ [(k, v)]

/-- Embedding of the `FiniteAutomaton` attribute record (states, alphabet,
transitions, start, accepting).  Python sets are carried as lists with set
semantics (see module comment). -/
structure FA where
  states : List V
  alphabet : List V
  transitions : TransL
  start : V
  accepting : List V
deriving DecidableEq

/-- The derived automaton kind (`AutomatonType` literal in the source). -/
inductive AKind where
  | dfa
  | nfa
  | epsilonNfa
deriving DecidableEq

/-- Embedding of `FiniteAutomaton.__is_total`: every (state, symbol) pair
over states x alphabet occurs as a transition key. -/
def isTotal (A : FA) : Bool :=
  A.states.all fun s => A.alphabet.all fun a =>
    A.transitions.any fun p => p.1 = (s, a)

/-- Embedding of `FiniteAutomaton.__get_type`: epsilon-keyed transition ->
`epsilon-nfa`; else all destination sets of size <= 1 and total -> `dfa`;
else `nfa`.  (`len` of a Python set is the number of distinct elements,
hence `dedup.length` on the list representation.) -/
def getType (A : FA) : AKind :=
  if A.transitions.any (fun p => p.1.2 = V.epsilon) then .epsilonNfa
  else if (A.transitions.all fun p => p.2.dedup.length ≤ 1) && isTotal A then .dfa
  else .nfa

/-- The cached `type` property of the source. -/
def FA.type (A : FA) : AKind := getType A

/-! ### Epsilon closure: `FiniteAutomaton.__reachable_without_read` -/

/-- Epsilon successors of a state:
`self.__transitions.get((state, EPSILON), set())`. -/
def epsSuccs (A : FA) (s : V) : List V := getD A.transitions (s, V.epsilon)

/-- One round of the visited-set epsilon traversal: every epsilon successor
of an already visited state becomes visited.  The source's queue-based
breadth-first loop is modelled frontier-at-a-time; the visited set after
the loop is the same. -/
def rwrStep (A : FA) (vis : List V) : List V :=
  (vis ++ vis.flatMap (epsSuccs A)).dedup

/-- Every state the traversal can ever visit is the start state or a
destination recorded in the transition table, so this bound on the visited
set size gives sufficient fuel. -/
def rwrUniv (A : FA) (s : V) : List V := (s :: A.transitions.flatMap (·.2)).dedup

/-- Fuel-indexed iteration of `rwrStep` until the visited set stops
growing (the queue of the source empties exactly when one further round
adds no state). -/
def rwrAux (A : FA) : Nat → List V → List V
  | 0, vis => vis
  | n + 1, vis =>
      let vis' := rwrStep A vis
      if vis'.length = vis.length then vis else rwrAux A n vis'

/-- Embedding of `FiniteAutomaton.__reachable_without_read`: the set of
states reachable from `start` along `EPSILON` transitions only, including
`start` itself, computed by a terminating visited-set traversal. -/
def reachableWithoutRead (A : FA) (s : V) : List V :=
  rwrAux A ((rwrUniv A s).length + 1) [s]

/-- Reachability along epsilon transitions only, as the spec words it:
reflexive-transitive closure of the epsilon sub-relation of the
transition table. -/
def EpsReach (A : FA) (s x : V) : Prop :=
  Relation.ReflTransGen (fun u v => v ∈ getD A.transitions (u, V.epsilon)) s x

lemma mem_getD_mem_flatMap {ts : TransL} {k : V × V} {y : V}
    (h : y ∈ getD ts k) : y ∈ ts.flatMap (·.2) := by
  induction ts with
  | nil => simp [getD, lookupT] at h
  | cons p ts ih =>
      simp only [getD, lookupT] at h
      by_cases hk : p.1 = k
      · simp only [hk, if_pos rfl, Option.getD_some] at h
        simp [List.mem_flatMap]
        exact Or.inl h
      · simp only [if_neg hk] at h
        simp only [List.flatMap_cons, List.mem_append]
        exact Or.inr (ih h)

lemma subset_rwrStep (A : FA) (vis : List V) : vis ⊆ rwrStep A vis := by
  intro x hx
  simp [rwrStep, List.mem_dedup]
  exact Or.inl hx

lemma epsSuccs_subset_rwrStep (A : FA) {vis : List V} {x : V} (hx : x ∈ vis) :
    epsSuccs A x ⊆ rwrStep A vis := by
  intro y hy
  simp [rwrStep, List.mem_dedup, List.mem_flatMap]
  exact Or.inr ⟨x, hx, hy⟩

lemma rwrStep_subset_univ (A : FA) {s : V} {vis : List V}
    (h : vis ⊆ rwrUniv A s) : rwrStep A vis ⊆ rwrUniv A s := by
  intro x hx
  simp only [rwrStep, List.mem_dedup, List.mem_append, List.mem_flatMap] at hx
  rcases hx with hx | ⟨y, _, hx⟩
  · exact h hx
  · simp only [rwrUniv, List.mem_dedup, List.mem_cons]
    exact Or.inr (mem_getD_mem_flatMap hx)

/-- Main invariant proof for the visited-set traversal: starting from a
visited set that is duplicate-free, inside the reachable universe and made
of epsilon-reachable states, enough fuel produces a visited set that
contains the initial one, contains only epsilon-reachable states, and is
closed under epsilon successors. -/
lemma rwrAux_spec (A : FA) (s : V) :
    ∀ (n : Nat) (vis : List V), vis.Nodup → vis ⊆ rwrUniv A s →
      (∀ x ∈ vis, EpsReach A s x) →
      (rwrUniv A s).length + 1 ≤ n + vis.length →
      vis ⊆ rwrAux A n vis ∧
      (∀ x ∈ rwrAux A n vis, EpsReach A s x) ∧
      (∀ x ∈ rwrAux A n vis, epsSuccs A x ⊆ rwrAux A n vis) := by
  intro n
  induction n with
  | zero =>
      intro vis hnd hsub _ hfuel
      exact absurd ((hnd.subperm hsub).length_le)
        (by simpa using Nat.lt_of_lt_of_le (Nat.lt_of_succ_le hfuel) (Nat.le_refl _))
  | succ n ih =>
      intro vis hnd hsub hreach hfuel
      by_cases hlen : (rwrStep A vis).length = vis.length
      · -- fixed point reached: one more round adds nothing
        have hperm : vis.Perm (rwrStep A vis) :=
          (hnd.subperm (subset_rwrStep A vis)).perm_of_length_le (le_of_eq hlen)
        have hback : rwrStep A vis ⊆ vis := fun x hx => hperm.mem_iff.mpr hx
        rw [rwrAux, if_pos hlen]
        refine ⟨fun x hx => hx, hreach, fun x hx y hy => ?_⟩
        exact hback (epsSuccs_subset_rwrStep A hx hy)
      · -- the visited set grew strictly; recurse on the remaining fuel
        have hmono : vis ⊆ rwrStep A vis := subset_rwrStep A vis
        have hnd' : (rwrStep A vis).Nodup := List.nodup_dedup _
        have hsub' : rwrStep A vis ⊆ rwrUniv A s := rwrStep_subset_univ A hsub
        have hge : vis.length ≤ (rwrStep A vis).length := (hnd.subperm hmono).length_le
        have hlt : vis.length < (rwrStep A vis).length :=
          lt_of_le_of_ne hge (fun h => hlen h.symm)
        have hreach' : ∀ x ∈ rwrStep A vis, EpsReach A s x := by
          intro x hx
          simp only [rwrStep, List.mem_dedup, List.mem_append, List.mem_flatMap] at hx
          rcases hx with hx | ⟨y, hy, hx⟩
          · exact hreach x hx
          · exact Relation.ReflTransGen.tail (hreach y hy) hx
        have hfuel' : (rwrUniv A s).length + 1 ≤ n + (rwrStep A vis).length := by omega
        have := ih (rwrStep A vis) hnd' hsub' hreach' hfuel'
        rw [rwrAux, if_neg hlen]
        exact ⟨fun x hx => this.1 (hmono hx), this.2.1, this.2.2⟩

/-- Correspondence between the traversal of the source and the
reflexive-transitive closure of the epsilon sub-relation. -/
lemma mem_reachableWithoutRead (A : FA) (s x : V) :
    x ∈ reachableWithoutRead A s ↔ EpsReach A s x := by
  have hsub : [s] ⊆ rwrUniv A s := by
    intro y hy
    simp only [List.mem_singleton] at hy
    simp [rwrUniv, List.mem_dedup, hy]
  have hspec := rwrAux_spec A s ((rwrUniv A s).length + 1) [s]
    (List.nodup_singleton s) hsub
    (by intro y hy; simp only [List.mem_singleton] at hy; exact hy ▸ Relation.ReflTransGen.refl)
    (by simp)
  constructor
  · intro hx
    exact hspec.2.1 x hx
  · intro hx
    induction hx with
    | refl => exact hspec.1 (by simp [reachableWithoutRead])
    | tail hab hbc ih => exact hspec.2.2 _ ih hbc

/-! ### Construction validation: `FiniteAutomaton.__init__` -/

/-- The four distinguishable construction failures raised by `__init__`
(each a `ValueError` with its own message in the source; the spec calls
them `ValidationError` cases). -/
inductive VErr where
  | noStates
  | noAlphabet
  | startNotInStates
  | acceptingNotSubset
deriving DecidableEq

/-- Embedding of `FiniteAutomaton.__init__`: the four invariant checks in
source order, then the record.  An empty Python set is falsy, hence the
`= []` tests on the list representation. -/
def validate (states alphabet : List V) (transitions : TransL)
    (start : V) (accepting : List V) : Except VErr FA :=
  if states = [] then .error .noStates
  else if alphabet = [] then .error .noAlphabet
  else if start ∉ states then .error .startNotInStates
  else if ¬ (∀ x ∈ accepting, x ∈ states) then .error .acceptingNotSubset
  else .ok ⟨states, alphabet, transitions, start, accepting⟩

/-! ### Deterministic simulation: `FiniteAutomaton.compute` / `accepts` -/

/-- Runtime failures of `compute`.  A missing transition key (`KeyError`)
is re-raised as `ValueError("Illegal transition (state, symbol)")`, which
names the offending pair; tuple unpacking of a destination set without
exactly one element raises a bare `ValueError` that names no pair. -/
inductive CErr where
  | illegalTransition : V → V → CErr
  | unpackError : CErr
deriving DecidableEq

/-- One-destination extraction, embedding `_state, = transitions[(state,
symbol)]` once the key was found (a Python set with exactly one distinct
element unpacks; any other size raises the unpacking `ValueError`). -/
def unpackOne (dests : List V) : Except CErr V :=
  match dests.dedup with
  | [d] => .ok d
  | _ => .error .unpackError

/-- The visited-state sequence of the `compute` loop on a classified DFA,
starting at `q`: yield the state, then repeatedly look up (state, symbol),
unpack the single destination and continue. -/
def dfaTrace (A : FA) : V → List V → Except CErr (List V)
  | q, [] => .ok [q]
  | q, s :: w =>
      match lookupT A.transitions (q, s) with
      | none => .error (.illegalTransition q s)
      | some dests =>
          match unpackOne dests with
          | .error e => .error e
          | .ok d => (dfaTrace A d w).map (fun tr => q :: tr)

/-- Final state of the `compute` loop (the `last_state` that `accepts`
destructures out of the generator). -/
def dfaLast (A : FA) : V → List V → Except CErr V
  | q, [] => .ok q
  | q, s :: w =>
      match lookupT A.transitions (q, s) with
      | none => .error (.illegalTransition q s)
      | some dests =>
          match unpackOne dests with
          | .error e => .error e
          | .ok d => dfaLast A d w

/-! ### Epsilon elimination: `FiniteAutomaton.remove_epsilon_transitions` -/

/-- `next1` of the source loop body: the epsilon closure of the state. -/
def next1 (A : FA) (s : V) : List V := reachableWithoutRead A s

/-- `next2`: union over the closure of the state of the recorded
destinations on the symbol. -/
def next2 (A : FA) (s a : V) : List V :=
  (next1 A s).flatMap (fun t => getD A.transitions (t, a))

/-- `next3`: epsilon closure of `next2`, the destination set recorded for
(state, symbol). -/
def next3 (A : FA) (s a : V) : List V :=
  ((next2 A s a).flatMap (fun u => reachableWithoutRead A u)).dedup

/-- The first loop of `remove_epsilon_transitions`: one entry per
(state, symbol) pair of states x alphabet. -/
def removeEpsBase (A : FA) : TransL :=
  A.states.flatMap fun s => A.alphabet.map fun a => ((s, a), next3 A s a)

/-- The second loop: every entry whose state is the original start state is
copied onto the `START` sentinel (a dictionary write, so it overwrites any
existing `(START, symbol)` binding; listing the copies first gives the
same first-match lookup table). -/
def removeEpsCopies (A : FA) : TransL :=
  ((removeEpsBase A).filter fun p => p.1.1 = A.start).map fun p => ((V.start, p.1.2), p.2)

/-- Embedding of `FiniteAutomaton.remove_epsilon_transitions`: identity
unless the automaton classifies as `epsilon-nfa`; otherwise the rebuilt
automaton over states ∪ {START} with the closed transition table, start
`START` and the unchanged accepting set. -/
def removeEps (A : FA) : FA :=
  if A.type = .epsilonNfa then
    { states := A.states ++ [V.start],
      alphabet := A.alphabet,
      transitions := removeEpsCopies A ++ removeEpsBase A,
      start := V.start,
      accepting := A.accepting }
  else A

/-! ### Subset construction: `FiniteAutomaton.determinize` -/

/-- Candidate members of any composite state: the start state and every
destination recorded in the transition table. -/
def scU (A : FA) : List V := (A.start :: A.transitions.flatMap (·.2)).dedup

/-- Canonical representative of a set of states as a composite: the
members listed in the fixed order of `scU`.  The source compares composite
states by their underlying sets (`set(s.states) == next_states`), so one
representative per set is faithful; the canonical order stands in for the
(irrelevant) Python set iteration order. -/
def canon (A : FA) (S : List V) : List V := (scU A).filter (fun v => v ∈ S)

/-- Mutable state of the subset-construction loop: the frontier queue, the
discovered composite states (in discovery order), whether the `EMPTY`
absorbing sentinel was discovered, and the transition table built so far
(already labelled by `SubsetState.to_symbol`, which the injective
`V.subsetSym` embeds). -/
structure SC where
  queue : List (List V)
  seen : List (List V)
  hasEmpty : Bool
  trans : TransL
deriving DecidableEq

/-- Body of the inner `for symbol in self.__alphabet` loop of
`determinize` for the dequeued composite `c`: union the destinations over
the members of `c`; an empty union wires the transition to `EMPTY`,
otherwise reuse the discovered composite with the same underlying set or
discover (and enqueue) a fresh one. -/
def scSym (A : FA) (c : List V) (st : SC) (a : V) : SC :=
  let nxt := c.flatMap fun s => getD A.transitions (s, a)
  if nxt = [] then
    { st with hasEmpty := true,
              trans := insertT st.trans (V.subsetSym c, a) [V.empty] }
  else
    let cn := canon A nxt
    if cn ∈ st.seen then
      { st with trans := insertT st.trans (V.subsetSym c, a) [V.subsetSym cn] }
    else
      { queue := st.queue ++ [cn], seen := st.seen ++ [cn], hasEmpty := st.hasEmpty,
        trans := insertT st.trans (V.subsetSym c, a) [V.subsetSym cn] }

/-- Processing of one dequeued composite: all alphabet symbols in order. -/
def scProc (A : FA) (c : List V) (st : SC) : SC := A.alphabet.foldl (scSym A c) st

/-- The `while queue` loop, fuel-indexed.  `scFuel` below is enough fuel
for the queue to empty: every enqueued composite is a fresh duplicate-free
sublist of `scU`, so at most `2 ^ |scU|` composites are ever enqueued. -/
def scLoop (A : FA) : Nat → SC → SC
  | 0, st => st
  | n + 1, st =>
      match st.queue with
      | [] => st
      | c :: rest => scLoop A n (scProc A c { st with queue := rest })

/-- Sufficient fuel for `scLoop`. -/
def scFuel (A : FA) : Nat := 2 ^ (scU A).length + 1

/-- The loop's initial state: the composite wrapping only the start state
(its canonical representative is `[A.start]` itself). -/
def scInit (A : FA) : SC :=
  { queue := [[A.start]], seen := [[A.start]], hasEmpty := false, trans := [] }

/-- After the loop: if `EMPTY` was discovered, wire it to loop to itself
on every alphabet symbol. -/
def scFinishTrans (A : FA) (st : SC) : TransL :=
  if st.hasEmpty then
    A.alphabet.foldl (fun tr a => insertT tr (V.empty, a) [V.empty]) st.trans
  else st.trans

/-- Embedding of the subset-construction part of `determinize` (the code
after the two early returns): run the loop, wire `EMPTY`, relabel every
composite by its `to_symbol` sentinel and rebuild states / accepting /
start. -/
def subsetConstruct (A : FA) : FA :=
  let st := scLoop A (scFuel A) (scInit A)
  { states := st.seen.map V.subsetSym ++ (if st.hasEmpty then [V.empty] else []),
    alphabet := A.alphabet,
    transitions := scFinishTrans A st,
    start := V.subsetSym [A.start],
    accepting := (st.seen.filter fun c => c.any (· ∈ A.accepting)).map V.subsetSym }

/-- Embedding of `FiniteAutomaton.determinize`: the receiver if already
`dfa`; for an `epsilon-nfa` first remove epsilon transitions, then
determinize the result; otherwise subset construction.  The source
recurses after `remove_epsilon_transitions`; since the rebuilt table keys
only alphabet symbols, that recursion meets an `epsilon-nfa` again only
when `EPSILON` is a declared alphabet member, in which case the source
recurses forever - the spec (§3) excludes `EPSILON` from the alphabet, and
the one-step unfolding here agrees with the source everywhere else. -/
def determinize (A : FA) : FA :=
  match A.type with
  | .dfa => A
  | .nfa => subsetConstruct A
  | .epsilonNfa =>
      match (removeEps A).type with
      | .dfa => removeEps A
      | _ => subsetConstruct (removeEps A)

/-- Embedding of `FiniteAutomaton.compute`: on a classified DFA run the
simulation loop from the start state; otherwise delegate to the
determinized automaton (whose classification is `dfa` whenever `EPSILON`
is not a declared alphabet member, the regime in which the source's
delegation terminates). -/
def computeFA (A : FA) (w : List V) : Except CErr (List V) :=
  if A.type = .dfa then dfaTrace A A.start w
  else dfaTrace (determinize A) (determinize A).start w

/-- Embedding of `FiniteAutomaton.accepts`: destructure the last state of
`compute`'s sequence and test membership in the receiver's own accepting
set (`self.__final` - the original set, even when `compute` delegated to
the determinized automaton). -/
def acceptsFA (A : FA) (w : List V) : Except CErr Bool :=
  (computeFA A w).map fun tr => decide (tr.getLastD A.start ∈ A.accepting)

/-- Embedding of `Language.__contains__` on finite words (an iterable
argument): pure delegation to `accepts`, so any simulation error
propagates to the membership test. -/
def languageContains (A : FA) (w : List V) : Except CErr Bool := acceptsFA A w

/-! ### Association-list (dict) lemmas -/

lemma lookupT_append_left {ts₁ ts₂ : TransL} {k : V × V} {v : List V}
    (h : lookupT ts₁ k = some v) : lookupT (ts₁ ++ ts₂) k = some v := by
  induction ts₁ with
  | nil => simp [lookupT] at h
  | cons p ts ih =>
      simp only [lookupT] at h ⊢
      by_cases hk : p.1 = k
      · simpa [hk] using h
      · rw [if_neg hk] at h ⊢
        exact ih h

lemma lookupT_append_right {ts₁ ts₂ : TransL} {k : V × V}
    (h : lookupT ts₁ k = none) : lookupT (ts₁ ++ ts₂) k = lookupT ts₂ k := by
  induction ts₁ with
  | nil => simp
  | cons p ts ih =>
      simp only [lookupT] at h ⊢
      by_cases hk : p.1 = k
      · simp [hk] at h
      · rw [if_neg hk] at h ⊢
        exact ih h

lemma lookupT_eq_none_iff {ts : TransL} {k : V × V} :
    lookupT ts k = none ↔ ∀ p ∈ ts, p.1 ≠ k := by
  induction ts with
  | nil => simp [lookupT]
  | cons p ts ih =>
      simp only [lookupT, List.mem_cons]
      by_cases hk : p.1 = k
      · simp [hk]
      · simp only [if_neg hk, ih]
        constructor
        · intro h q hq
          rcases hq with rfl | hq
          · exact hk
          · exact h q hq
        · intro h q hq
          exact h q (Or.inr hq)

lemma lookupT_isSome_iff_any {ts : TransL} {k : V × V} :
    (lookupT ts k).isSome = true ↔ (ts.any fun p => p.1 = k) = true := by
  induction ts with
  | nil => simp [lookupT]
  | cons p ts ih =>
      simp only [lookupT, List.any_cons]
      by_cases hk : p.1 = k
      · simp [hk]
      · simp [hk, ih]

/-- If every binding's value is a function of its key, first-match lookup
after a hit returns exactly that value. -/
lemma lookupT_of_valueFun {ts : TransL} {k : V × V} (F : V × V → List V)
    (hall : ∀ p ∈ ts, p.2 = F p.1) (hit : (lookupT ts k).isSome = true) :
    lookupT ts k = some (F k) := by
  induction ts with
  | nil => simp [lookupT] at hit
  | cons p ts ih =>
      simp only [lookupT] at hit ⊢
      by_cases hk : p.1 = k
      · rw [if_pos hk]
        have := hall p (by simp)
        rw [this, hk]
      · rw [if_neg hk] at hit ⊢
        exact ih (fun q hq => hall q (by simp [hq])) hit

lemma mem_insertT {ts : TransL} {k : V × V} {v : List V} {p : (V × V) × List V}
    (h : p ∈ insertT ts k v) : p ∈ ts ∨ p = (k, v) := by
  unfold insertT at h
  by_cases hk : (ts.any fun q => q.1 = k) = true
  · rw [if_pos hk] at h
    rcases List.mem_map.mp h with ⟨q, hq, hmap⟩
    by_cases hq1 : q.1 = k
    · right
      rw [if_pos hq1] at hmap
      exact hmap.symm
    · left
      rw [if_neg hq1] at hmap
      exact hmap ▸ hq
  · rw [if_neg hk] at h
    rcases List.mem_append.mp h with h | h
    · exact Or.inl h
    · exact Or.inr (by simpa using h)

lemma lookupT_insertT_isSome {ts : TransL} {k k' : V × V} {v : List V} :
    (lookupT (insertT ts k v) k').isSome = true ↔
      k' = k ∨ (lookupT ts k').isSome = true := by
  simp only [lookupT_isSome_iff_any, insertT]
  by_cases hk : (ts.any fun q => q.1 = k) = true
  · rw [if_pos hk]
    simp only [List.any_eq_true, List.mem_map, decide_eq_true_eq]
    constructor
    · rintro ⟨p, ⟨q, hq, rfl⟩, hp⟩
      by_cases hq1 : q.1 = k
      · rw [if_pos hq1] at hp
        exact Or.inl hp.symm
      · rw [if_neg hq1] at hp
        exact Or.inr ⟨q, hq, hp⟩
    · rintro (rfl | ⟨q, hq, hq1⟩)
      · rcases List.any_eq_true.mp hk with ⟨q, hq, hq1⟩
        refine ⟨(k', v), ⟨q, hq, ?_⟩, rfl⟩
        rw [if_pos (by simpa using hq1)]
      · by_cases hqk : q.1 = k
        · refine ⟨(k, v), ⟨q, hq, by rw [if_pos hqk]⟩, ?_⟩
          rw [← hq1, hqk]
        · exact ⟨q, ⟨q, hq, by rw [if_neg hqk]⟩, hq1⟩
  · rw [if_neg hk]
    simp only [List.any_append, List.any_eq_true, decide_eq_true_eq, Bool.or_eq_true,
      List.any_cons, List.any_nil, Bool.or_false]
    constructor
    · rintro (⟨q, hq, hq1⟩ | h)
      · exact Or.inr ⟨q, hq, hq1⟩
      · exact Or.inl h.symm
    · rintro (rfl | ⟨q, hq, hq1⟩)
      · exact Or.inr rfl
      · exact Or.inl ⟨q, hq, hq1⟩

/-! ### C7: construction validation -/

/-- C7 helper: the four invariants of §3, as the spec states them (on the
set semantics of the list representation). -/
def ValidInputs (states alphabet : List V) (s : V) (accepting : List V) : Prop :=
  states ≠ [] ∧ alphabet ≠ [] ∧ s ∈ states ∧ ∀ x ∈ accepting, x ∈ states

/-- C7: construction fails with a `ValidationError` exactly when one of
the four invariants is violated, each failure case is distinguishable
(its own error value, selected in source order), and construction
succeeds whenever all four invariants hold. -/
theorem c7_validation (states alphabet : List V) (transitions : TransL)
    (s : V) (accepting : List V) :
    (validate states alphabet transitions s accepting = .error .noStates ↔
        states = []) ∧
    (validate states alphabet transitions s accepting = .error .noAlphabet ↔
        states ≠ [] ∧ alphabet = []) ∧
    (validate states alphabet transitions s accepting = .error .startNotInStates ↔
        states ≠ [] ∧ alphabet ≠ [] ∧ s ∉ states) ∧
    (validate states alphabet transitions s accepting = .error .acceptingNotSubset ↔
        states ≠ [] ∧ alphabet ≠ [] ∧ s ∈ states ∧ ¬ (∀ x ∈ accepting, x ∈ states)) ∧
    ((∃ e, validate states alphabet transitions s accepting = .error e) ↔
        ¬ ValidInputs states alphabet s accepting) ∧
    (validate states alphabet transitions s accepting =
        .ok ⟨states, alphabet, transitions, s, accepting⟩ ↔
        ValidInputs states alphabet s accepting) := by
  unfold validate ValidInputs
  by_cases h1 : states = []
  · simp [h1]
  by_cases h2 : alphabet = []
  · simp [h1, h2]
  by_cases h3 : s ∈ states
  · by_cases h4 : ∀ x ∈ accepting, x ∈ states
    · have h4' : ¬ ∃ x ∈ accepting, x ∉ states := by
        push_neg
        exact h4
      simp only [validate] at *
      simp [h1, h2, h3, h4', ValidInputs]
      exact h4
    · have h4' : ∃ x ∈ accepting, x ∉ states := by
        push_neg at h4
        exact h4
      simp [h1, h2, h3, h4, h4']
  · simp [h1, h2, h3]

/-! ### C2: type classification -/

/-- The classification rule exactly as the spec words it: `EPSILON`-keyed
transition -> `epsilon-nfa`; else total (every (state, symbol) pair over
states x alphabet has a recorded transition entry) and every recorded
destination set of size <= 1 -> `dfa`; else `nfa`. -/
def specKind (A : FA) : AKind :=
  if ∃ p ∈ A.transitions, p.1.2 = V.epsilon then .epsilonNfa
  else if (∀ s ∈ A.states, ∀ a ∈ A.alphabet, ∃ p ∈ A.transitions, p.1 = (s, a)) ∧
          (∀ p ∈ A.transitions, p.2.dedup.length ≤ 1) then .dfa
  else .nfa

/-- C2: the derived kind of every automaton is computed by the spec's
precedence: epsilon keys first, then totality together with all
destination sets of size at most one, else `nfa`. -/
theorem c2_classification (A : FA) : A.type = specKind A := by
  unfold FA.type getType specKind
  by_cases h1 : ∃ p ∈ A.transitions, p.1.2 = V.epsilon
  · have hb : (A.transitions.any fun p => decide (p.1.2 = V.epsilon)) = true := by
      simpa [List.any_eq_true] using h1
    rw [if_pos hb, if_pos h1]
  · have hb : ¬ (A.transitions.any fun p => decide (p.1.2 = V.epsilon)) = true := by
      simpa [List.any_eq_true] using h1
    rw [if_neg hb, if_neg h1]
    by_cases h2 : (∀ s ∈ A.states, ∀ a ∈ A.alphabet, ∃ p ∈ A.transitions, p.1 = (s, a)) ∧
        (∀ p ∈ A.transitions, p.2.dedup.length ≤ 1)
    · have hb2 : ((A.transitions.all fun p => decide (p.2.dedup.length ≤ 1)) && isTotal A) = true := by
        unfold isTotal
        simp only [Bool.and_eq_true, List.all_eq_true, List.any_eq_true, decide_eq_true_eq]
        exact ⟨h2.2, h2.1⟩
      rw [if_pos hb2, if_pos h2]
    · have hb2 : ¬ ((A.transitions.all fun p => decide (p.2.dedup.length ≤ 1)) && isTotal A) = true := by
        unfold isTotal
        simp only [Bool.and_eq_true, List.all_eq_true, List.any_eq_true, decide_eq_true_eq]
        intro hcon
        exact h2 ⟨hcon.2, hcon.1⟩
      rw [if_neg hb2, if_neg h2]

/-! ### Simulation lemmas -/

lemma dfaTrace_map_getLastD (A : FA) :
    ∀ (w : List V) (q d : V),
      (dfaTrace A q w).map (fun tr => tr.getLastD d) = dfaLast A q w := by
  intro w
  induction w with
  | nil =>
      intro q d
      rfl
  | cons s w ih =>
      intro q d
      simp only [dfaTrace, dfaLast]
      cases hk : lookupT A.transitions (q, s) with
      | none => rfl
      | some dests =>
          dsimp only
          cases hu : unpackOne dests with
          | error e => rfl
          | ok d' =>
              dsimp only
              rw [← ih d' q]
              cases h : dfaTrace A d' w with
              | error e => rfl
              | ok tr =>
                  show Except.ok ((q :: tr).getLastD d) = Except.ok (tr.getLastD q)
                  rw [List.getLastD_cons]

lemma dfaTrace_error_of_dfaLast_error (A : FA) (q : V) (w : List V) (e : CErr)
    (h : dfaLast A q w = .error e) : dfaTrace A q w = .error e := by
  have hm := dfaTrace_map_getLastD A w q q
  rw [h] at hm
  cases htr : dfaTrace A q w with
  | ok tr =>
      rw [htr] at hm
      exact absurd hm (by simp [Except.map])
  | error e' =>
      rw [htr] at hm
      simpa [Except.map] using hm

lemma dfaLast_append (A : FA) :
    ∀ (w₁ : List V) (q q' : V), dfaLast A q w₁ = .ok q' →
      ∀ w₂, dfaLast A q (w₁ ++ w₂) = dfaLast A q' w₂ := by
  intro w₁
  induction w₁ with
  | nil =>
      intro q q' h w₂
      have : q = q' := by simpa [dfaLast] using h
      rw [List.nil_append, this]
  | cons s w ih =>
      intro q q' h w₂
      rw [List.cons_append]
      simp only [dfaLast] at h ⊢
      cases hk : lookupT A.transitions (q, s) with
      | none => rw [hk] at h; exact absurd h (by simp)
      | some dests =>
          rw [hk] at h
          dsimp only at h ⊢
          cases hu : unpackOne dests with
          | error e => rw [hu] at h; exact absurd h (by simp)
          | ok d =>
              rw [hu] at h
              dsimp only at h ⊢
              exact ih d q' h w₂

lemma unpackOne_of_not_single {dests : List V} (h : dests.dedup.length ≠ 1) :
    unpackOne dests = .error .unpackError := by
  unfold unpackOne
  cases hd : dests.dedup with
  | nil => rfl
  | cons d t =>
      cases t with
      | nil => exact absurd (by rw [hd]; rfl) h
      | cons d' t' => rfl

lemma dfaLast_head_missing (A : FA) (q s : V) (w : List V)
    (hkey : lookupT A.transitions (q, s) = none) :
    dfaLast A q (s :: w) = .error (.illegalTransition q s) := by
  simp only [dfaLast, hkey]

lemma dfaLast_head_unpack (A : FA) (q s : V) (w : List V) (dests : List V)
    (hkey : lookupT A.transitions (q, s) = some dests)
    (hd : dests.dedup.length ≠ 1) :
    dfaLast A q (s :: w) = .error .unpackError := by
  simp only [dfaLast, hkey, unpackOne_of_not_single hd]

lemma acceptsFA_eq_map_dfaLast (A : FA) (h : A.type = .dfa) (w : List V) :
    acceptsFA A w = (dfaLast A A.start w).map (fun q => decide (q ∈ A.accepting)) := by
  unfold acceptsFA computeFA
  rw [if_pos h, ← dfaTrace_map_getLastD A w A.start A.start]
  cases dfaTrace A A.start w <;> rfl

lemma computeFA_error_of_dfaLast (A : FA) (h : A.type = .dfa) (w : List V) (e : CErr)
    (herr : dfaLast A A.start w = .error e) : computeFA A w = .error e := by
  unfold computeFA
  rw [if_pos h]
  exact dfaTrace_error_of_dfaLast_error A A.start w e herr

/-! ### C8: epsilon closure terminates and is exactly epsilon reachability -/

/-- C8: for every automaton and every state, the epsilon-closure
computation of `__reachable_without_read` (a total function here, i.e. it
terminates on every input, cyclic epsilon sub-relations included) returns
exactly the set of states reachable via `EPSILON` transitions only,
including the state itself. -/
theorem c8_closure_exact (A : FA) (s : V) :
    s ∈ reachableWithoutRead A s ∧
    ∀ x, x ∈ reachableWithoutRead A s ↔ EpsReach A s x :=
  ⟨(mem_reachableWithoutRead A s s).mpr Relation.ReflTransGen.refl,
   fun x => mem_reachableWithoutRead A s x⟩

/-! ### C9: the even-number-of-a scenario DFA -/

/-- Scenario 1 of §8: states {0,1}, alphabet {a,b}, transitions
0,a->1; 0,b->0; 1,a->0; 1,b->1, start 0, accepting {0}. -/
def D9 : FA :=
  ⟨[V.nat 0, V.nat 1], [V.str "a", V.str "b"],
   [((V.nat 0, V.str "a"), [V.nat 1]), ((V.nat 0, V.str "b"), [V.nat 0]),
    ((V.nat 1, V.str "a"), [V.nat 0]), ((V.nat 1, V.str "b"), [V.nat 1])],
   V.nat 0, [V.nat 0]⟩

/-- The other state of `D9`. -/
def flip9 (q : V) : V := if q = V.nat 0 then V.nat 1 else V.nat 0

lemma dfaLast_D9 :
    ∀ (w : List V), (∀ c ∈ w, c = V.str "a" ∨ c = V.str "b") →
      ∀ q, (q = V.nat 0 ∨ q = V.nat 1) →
        dfaLast D9 q w = .ok (if Even (w.count (V.str "a")) then q else flip9 q) := by
  intro w
  induction w with
  | nil =>
      intro _ q _
      simp [dfaLast]
  | cons c w ih =>
      intro hw q hq
      have hc : c = V.str "a" ∨ c = V.str "b" := hw c (by simp)
      have hw' : ∀ c ∈ w, c = V.str "a" ∨ c = V.str "b" := fun c hc => hw c (by simp [hc])
      rcases hc with rfl | rfl
      · have hcount : (V.str "a" :: w).count (V.str "a") = w.count (V.str "a") + 1 := by
          simp [List.count_cons]
        rcases hq with rfl | rfl
        · have hstep : dfaLast D9 (V.nat 0) (V.str "a" :: w) = dfaLast D9 (V.nat 1) w := rfl
          rw [hstep, ih hw' (V.nat 1) (Or.inr rfl), hcount]
          by_cases hE : Even (w.count (V.str "a")) <;>
            simp [hE, Nat.even_add_one, flip9]
        · have hstep : dfaLast D9 (V.nat 1) (V.str "a" :: w) = dfaLast D9 (V.nat 0) w := rfl
          rw [hstep, ih hw' (V.nat 0) (Or.inl rfl), hcount]
          by_cases hE : Even (w.count (V.str "a")) <;>
            simp [hE, Nat.even_add_one, flip9]
      · have hcount : (V.str "b" :: w).count (V.str "a") = w.count (V.str "a") := by
          simp [List.count_cons]
        rcases hq with rfl | rfl
        · have hstep : dfaLast D9 (V.nat 0) (V.str "b" :: w) = dfaLast D9 (V.nat 0) w := rfl
          rw [hstep, ih hw' (V.nat 0) (Or.inl rfl), hcount]
        · have hstep : dfaLast D9 (V.nat 1) (V.str "b" :: w) = dfaLast D9 (V.nat 1) w := rfl
          rw [hstep, ih hw' (V.nat 1) (Or.inr rfl), hcount]

/-- C9: on the scenario DFA, `accepts` returns true exactly when the word
contains an even number of `a`s (for every word over the declared
alphabet; in particular "aa" and "" are accepted and "a" is rejected -
see the witness). -/
theorem c9_even_count (w : List V) (hw : ∀ c ∈ w, c = V.str "a" ∨ c = V.str "b") :
    acceptsFA D9 w = .ok (decide (Even (w.count (V.str "a")))) := by
  have hdfa : D9.type = .dfa := by decide
  rw [acceptsFA_eq_map_dfaLast D9 hdfa w]
  have hstart : D9.start = V.nat 0 := rfl
  rw [hstart, dfaLast_D9 w hw (V.nat 0) (Or.inl rfl)]
  by_cases hE : Even (w.count (V.str "a")) <;> simp [hE, D9, flip9, Except.map]

/-- Witness for C9 at the words "aa", "a" and "": "aa" and "" are
accepted, "a" is rejected. -/
theorem c9_even_count_witness :
    (∀ c ∈ [V.str "a", V.str "a"], c = V.str "a" ∨ c = V.str "b") ∧
    acceptsFA D9 [V.str "a", V.str "a"] = .ok true ∧
    acceptsFA D9 [V.str "a"] = .ok false ∧
    acceptsFA D9 [] = .ok true := by
  refine ⟨by decide, ?_, ?_, ?_⟩
  · have h := c9_even_count [V.str "a", V.str "a"] (by decide)
    simpa using h
  · have h := c9_even_count [V.str "a"] (by decide)
    simpa using h
  · have h := c9_even_count [] (by decide)
    simpa using h

/-! ### C10 and C6: simulation failures on a classified DFA -/

/-- C10: on a classified DFA, if the run over a prefix reaches a state
with no recorded transition key for the next symbol (in particular this is
how a symbol outside the declared alphabet typically fails), then
`compute`, `accepts` and `Language` membership all fail with the
Illegal-transition error naming that (state, symbol) pair instead of
returning a result. -/
theorem c10_illegal_propagates (A : FA) (w₁ : List V) (q s : V) (w₂ : List V)
    (hdfa : A.type = .dfa) (hrun : dfaLast A A.start w₁ = .ok q)
    (hkey : lookupT A.transitions (q, s) = none) :
    computeFA A (w₁ ++ s :: w₂) = .error (.illegalTransition q s) ∧
    acceptsFA A (w₁ ++ s :: w₂) = .error (.illegalTransition q s) ∧
    languageContains A (w₁ ++ s :: w₂) = .error (.illegalTransition q s) := by
  have hlast : dfaLast A A.start (w₁ ++ s :: w₂) = .error (.illegalTransition q s) := by
    rw [dfaLast_append A w₁ A.start q hrun (s :: w₂)]
    exact dfaLast_head_missing A q s w₂ hkey
  have hcomp := computeFA_error_of_dfaLast A hdfa (w₁ ++ s :: w₂) _ hlast
  have hacc : acceptsFA A (w₁ ++ s :: w₂) = .error (.illegalTransition q s) := by
    rw [acceptsFA_eq_map_dfaLast A hdfa, hlast]
    rfl
  exact ⟨hcomp, hacc, hacc⟩

/-- Witness for C10: on the scenario DFA `D9`, the out-of-alphabet symbol
"c" has no recorded key at the start state, and `compute` / `accepts` /
membership fail with the Illegal-transition error naming (0, "c"). -/
theorem c10_illegal_propagates_witness :
    D9.type = .dfa ∧ dfaLast D9 D9.start [] = .ok (V.nat 0) ∧
    lookupT D9.transitions (V.nat 0, V.str "c") = none ∧
    (computeFA D9 ([] ++ V.str "c" :: []) = .error (.illegalTransition (V.nat 0) (V.str "c")) ∧
     acceptsFA D9 ([] ++ V.str "c" :: []) = .error (.illegalTransition (V.nat 0) (V.str "c")) ∧
     languageContains D9 ([] ++ V.str "c" :: []) = .error (.illegalTransition (V.nat 0) (V.str "c"))) :=
  ⟨by decide, by decide, by decide,
   c10_illegal_propagates D9 [] (V.nat 0) (V.str "c") [] (by decide) (by decide) (by decide)⟩

/-- A classified DFA with a recorded empty destination set: classification
accepts it (size 0 <= 1, and the table is total), but the `compute` loop
cannot unpack a single destination from it. -/
def D6 : FA := ⟨[V.nat 0], [V.str "b"], [((V.nat 0, V.str "b"), [])], V.nat 0, [V.nat 0]⟩

/-- Counterexample to C6 as stated: on the classified DFA `D6` the step at
(0, "b") finds a recorded destination set with no single state, yet the
failure is the bare unpacking error, not an `IllegalTransitionError`
identifying the offending pair. -/
theorem c6_counterexample :
    D6.type = .dfa ∧
    computeFA D6 [V.str "b"] = .error .unpackError ∧
    computeFA D6 [V.str "b"] ≠ .error (.illegalTransition (V.nat 0) (V.str "b")) := by
  refine ⟨by decide, by decide, by decide⟩

/-- C6 (amended): on a classified DFA, a reached step with a missing
transition key fails with the Illegal-transition error identifying the
(state, symbol) pair, while a reached step whose recorded destination set
does not have exactly one distinct state (for a classified DFA: an empty
one) fails with the unpacking error, which identifies no pair. -/
theorem c6_step_failures (A : FA) (w₁ : List V) (q s : V) (w₂ : List V)
    (hdfa : A.type = .dfa) (hrun : dfaLast A A.start w₁ = .ok q) :
    (lookupT A.transitions (q, s) = none →
      computeFA A (w₁ ++ s :: w₂) = .error (.illegalTransition q s)) ∧
    (∀ dests, lookupT A.transitions (q, s) = some dests → dests.dedup.length ≠ 1 →
      computeFA A (w₁ ++ s :: w₂) = .error .unpackError) := by
  constructor
  · intro hkey
    refine computeFA_error_of_dfaLast A hdfa _ _ ?_
    rw [dfaLast_append A w₁ A.start q hrun (s :: w₂)]
    exact dfaLast_head_missing A q s w₂ hkey
  · intro dests hkey hd
    refine computeFA_error_of_dfaLast A hdfa _ _ ?_
    rw [dfaLast_append A w₁ A.start q hrun (s :: w₂)]
    exact dfaLast_head_unpack A q s w₂ dests hkey hd

/-- Witness for C6 (amended), on `D6` extended by both failure shapes:
the missing key (0, "c") raises the Illegal-transition error and the
recorded empty set at (0, "b") raises the unpacking error. -/
theorem c6_step_failures_witness :
    D6.type = .dfa ∧ dfaLast D6 D6.start [] = .ok (V.nat 0) ∧
    lookupT D6.transitions (V.nat 0, V.str "c") = none ∧
    lookupT D6.transitions (V.nat 0, V.str "b") = some [] ∧
    computeFA D6 ([] ++ V.str "c" :: []) = .error (.illegalTransition (V.nat 0) (V.str "c")) ∧
    computeFA D6 ([] ++ V.str "b" :: []) = .error .unpackError := by
  refine ⟨by decide, by decide, by decide, by decide, ?_, ?_⟩
  · exact (c6_step_failures D6 [] (V.nat 0) (V.str "c") [] (by decide) (by decide)).1 (by decide)
  · exact (c6_step_failures D6 [] (V.nat 0) (V.str "b") [] (by decide) (by decide)).2 [] (by decide) (by decide)

/-! ### C1: start and accepting set after epsilon removal -/

/-- An epsilon-NFA whose start state is accepting (and which does not
contain the `START` sentinel among its states). -/
def E1 : FA :=
  ⟨[V.nat 0], [V.str "a"],
   [((V.nat 0, V.epsilon), [V.nat 0]), ((V.nat 0, V.str "a"), [V.nat 0])],
   V.nat 0, [V.nat 0]⟩

/-- Counterexample to C1 as stated: on `E1` the original start state is
accepting, yet `START` is not flagged accepting in the result of
`remove_epsilon_transitions` - the claimed "if and only if" fails. -/
theorem c1_counterexample :
    E1.type = .epsilonNfa ∧ E1.start ∈ E1.accepting ∧
    (removeEps E1).start = V.start ∧
    ¬ (V.start ∈ (removeEps E1).accepting ↔ E1.start ∈ E1.accepting) := by
  refine ⟨by decide, by decide, by decide, by decide⟩

/-- C1 (amended): for every epsilon-NFA, the result of
`remove_epsilon_transitions` has the `START` sentinel as start state and
carries the original accepting set unchanged; consequently `START` is
flagged accepting exactly when `START` was already in the original
accepting set - not when the original start state is accepting. -/
theorem c1_start_accepting (A : FA) (h : A.type = .epsilonNfa) :
    (removeEps A).start = V.start ∧
    (removeEps A).accepting = A.accepting ∧
    (V.start ∈ (removeEps A).accepting ↔ V.start ∈ A.accepting) := by
  unfold removeEps
  rw [if_pos h]
  exact ⟨rfl, rfl, Iff.rfl⟩

/-- Witness for C1 (amended) at `E1`. -/
theorem c1_start_accepting_witness :
    E1.type = .epsilonNfa ∧
    ((removeEps E1).start = V.start ∧
     (removeEps E1).accepting = E1.accepting ∧
     (V.start ∈ (removeEps E1).accepting ↔ V.start ∈ E1.accepting)) :=
  ⟨by decide, c1_start_accepting E1 (by decide)⟩

/-! ### C3: accepts versus determinize().accepts -/

/-- A (non-total) NFA: one state, no transitions, the start state
accepting.  Its language contains the empty word. -/
def N1 : FA := ⟨[V.nat 0], [V.str "a"], [], V.nat 0, [V.nat 0]⟩

/-- C3 fails on the code: `N1.accepts("")` delegates the run to the
determinized automaton but then tests the final relabelled sentinel state
against `N1`'s own accepting set `{0}`, returning `False`, while
`N1.determinize().accepts("")` returns `True`.  The delegation built into
`compute` makes the spec's auto-determinization reading the clear intent;
checking the delegated final state against `self.__final` is the slip. -/
theorem c3_code_divergence :
    N1.type = .nfa ∧
    acceptsFA N1 [] = .ok false ∧
    acceptsFA (determinize N1) [] = .ok true := by
  refine ⟨by decide, by decide, by decide⟩

/-! ### C5: the rebuilt transition entries of epsilon removal -/

lemma removeEps_transitions (A : FA) (h : A.type = .epsilonNfa) :
    (removeEps A).transitions = removeEpsCopies A ++ removeEpsBase A := by
  simp only [removeEps, if_pos h]

lemma removeEpsBase_valueFun (A : FA) :
    ∀ p ∈ removeEpsBase A, p.2 = (fun k : V × V => next3 A k.1 k.2) p.1 := by
  intro p hp
  rcases List.mem_flatMap.mp hp with ⟨s, _, hp⟩
  rcases List.mem_map.mp hp with ⟨a, _, rfl⟩
  rfl

lemma removeEpsBase_lookup (A : FA) {s a : V} (hs : s ∈ A.states) (ha : a ∈ A.alphabet) :
    lookupT (removeEpsBase A) (s, a) = some (next3 A s a) := by
  have hit : (lookupT (removeEpsBase A) (s, a)).isSome = true := by
    rw [lookupT_isSome_iff_any]
    rw [List.any_eq_true]
    refine ⟨((s, a), next3 A s a), ?_, by simp⟩
    exact List.mem_flatMap.mpr ⟨s, hs, List.mem_map.mpr ⟨a, ha, rfl⟩⟩
  exact lookupT_of_valueFun (fun k : V × V => next3 A k.1 k.2) (removeEpsBase_valueFun A) hit

lemma removeEpsCopies_lookup_ne_start (A : FA) {s a : V} (hns : s ≠ V.start) :
    lookupT (removeEpsCopies A) (s, a) = none := by
  rw [lookupT_eq_none_iff]
  intro p hp
  rcases List.mem_map.mp hp with ⟨q, _, rfl⟩
  intro hcon
  exact hns (by
    have := congrArg Prod.fst hcon
    simpa using this.symm)

/-- C5 (amended): for every epsilon-NFA, every original state `s` other
than the `START` sentinel and every alphabet symbol `a`, the rebuilt
transition entry at (s, a) is exactly
`closure(union over t in closure(s) of transitions[(t, a)])`, where
`closure` is epsilon reachability (including the state itself).  The
entry of the `START` sentinel itself, when `START` is among the original
states, is instead overwritten with the start state's entry (see the
counterexample). -/
theorem c5_entry_formula (A : FA) (h : A.type = .epsilonNfa)
    (s : V) (hs : s ∈ A.states) (hns : s ≠ V.start)
    (a : V) (ha : a ∈ A.alphabet) (x : V) :
    x ∈ getD (removeEps A).transitions (s, a) ↔
      ∃ u, (∃ t, EpsReach A s t ∧ u ∈ getD A.transitions (t, a)) ∧ EpsReach A u x := by
  rw [removeEps_transitions A h]
  unfold getD
  rw [lookupT_append_right (removeEpsCopies_lookup_ne_start A hns),
    removeEpsBase_lookup A hs ha]
  simp only [Option.getD_some]
  unfold next3 next2 next1
  simp only [List.mem_dedup, List.mem_flatMap]
  constructor
  · rintro ⟨u, ⟨t, ht, hu⟩, hx⟩
    exact ⟨u, ⟨t, (mem_reachableWithoutRead A s t).mp ht, hu⟩,
      (mem_reachableWithoutRead A u x).mp hx⟩
  · rintro ⟨u, ⟨t, ht, hu⟩, hx⟩
    exact ⟨u, ⟨t, (mem_reachableWithoutRead A s t).mpr ht, hu⟩,
      (mem_reachableWithoutRead A u x).mpr hx⟩

/-- An epsilon-NFA that has the `START` sentinel among its original
states (the construction accepts sentinels as ordinary states). -/
def E5 : FA :=
  ⟨[V.start, V.nat 0], [V.str "a"],
   [((V.nat 0, V.epsilon), [V.nat 0]), ((V.nat 0, V.str "a"), [V.nat 0])],
   V.nat 0, [V.nat 0]⟩

/-- Counterexample to C5 as stated over all original states: in `E5` the
original state `START` has no outgoing transitions, so the claimed
formula gives the empty destination set at (START, "a"), but the copying
loop of `remove_epsilon_transitions` overwrites the (START, "a") entry
with the start state's entry {0}. -/
theorem c5_counterexample :
    E5.type = .epsilonNfa ∧ V.start ∈ E5.states ∧ V.str "a" ∈ E5.alphabet ∧
    V.nat 0 ∈ getD (removeEps E5).transitions (V.start, V.str "a") ∧
    ¬ ∃ u, (∃ t, EpsReach E5 V.start t ∧ u ∈ getD E5.transitions (t, V.str "a")) ∧
        EpsReach E5 u (V.nat 0) := by
  refine ⟨by decide, by decide, by decide, by decide, ?_⟩
  rintro ⟨u, ⟨t, ht, hu⟩, -⟩
  have ht' : t ∈ reachableWithoutRead E5 V.start :=
    (mem_reachableWithoutRead E5 V.start t).mpr ht
  have hres : reachableWithoutRead E5 V.start = [V.start] := by decide
  rw [hres] at ht'
  have hts : t = V.start := by simpa using ht'
  rw [hts] at hu
  have hempty : getD E5.transitions (V.start, V.str "a") = [] := by decide
  rw [hempty] at hu
  simp at hu

/-- Witness for C5 (amended) at `E5`, state 0 and symbol "a". -/
theorem c5_entry_formula_witness :
    (E5.type = .epsilonNfa ∧ V.nat 0 ∈ E5.states ∧ V.nat 0 ≠ V.start ∧
     V.str "a" ∈ E5.alphabet) ∧
    (V.nat 0 ∈ getD (removeEps E5).transitions (V.nat 0, V.str "a") ↔
      ∃ u, (∃ t, EpsReach E5 (V.nat 0) t ∧ u ∈ getD E5.transitions (t, V.str "a")) ∧
        EpsReach E5 u (V.nat 0)) :=
  ⟨⟨by decide, by decide, by decide, by decide⟩,
   c5_entry_formula E5 (by decide) (V.nat 0) (by decide) (by decide)
     (V.str "a") (by decide) (V.nat 0)⟩

/-! ### C4: determinization yields a classified DFA -/

lemma scSym_facts (A : FA) (c : List V) (st : SC) (a : V) :
    ∃ ext, (scSym A c st a).seen = st.seen ++ ext ∧
      (scSym A c st a).queue = st.queue ++ ext ∧
      ext.Nodup ∧
      (∀ x ∈ ext, x.Sublist (scU A) ∧ x ∉ st.seen) ∧
      ∃ v, v.dedup.length ≤ 1 ∧
        (scSym A c st a).trans = insertT st.trans (V.subsetSym c, a) v := by
  simp only [scSym]
  split_ifs with h1 h2
  · exact ⟨[], by simp, by simp, by simp, by simp, [V.empty], by simp, rfl⟩
  · exact ⟨[], by simp, by simp, by simp, by simp,
      [V.subsetSym (canon A (c.flatMap fun s => getD A.transitions (s, a)))], by simp, rfl⟩
  · refine ⟨[canon A (c.flatMap fun s => getD A.transitions (s, a))], rfl, rfl, by simp, ?_,
      [V.subsetSym (canon A (c.flatMap fun s => getD A.transitions (s, a)))], by simp, rfl⟩
    intro x hx
    rcases List.mem_singleton.mp hx with rfl
    exact ⟨List.filter_sublist _, h2⟩

lemma scProcAux (A : FA) (c : List V) :
    ∀ (al : List V) (st : SC), (∀ a ∈ al, a ∈ A.alphabet) →
      ∃ ext, (al.foldl (scSym A c) st).seen = st.seen ++ ext ∧
        (al.foldl (scSym A c) st).queue = st.queue ++ ext ∧
        (∀ x ∈ ext, x.Sublist (scU A)) ∧
        (st.seen.Nodup → ((al.foldl (scSym A c) st).seen).Nodup) ∧
        (∀ k, (lookupT (al.foldl (scSym A c) st).trans k).isSome = true ↔
            (∃ a ∈ al, k = (V.subsetSym c, a)) ∨ (lookupT st.trans k).isSome = true) ∧
        (∀ p ∈ (al.foldl (scSym A c) st).trans, p ∈ st.trans ∨
            ∃ a ∈ al, ∃ v, p = ((V.subsetSym c, a), v) ∧ v.dedup.length ≤ 1) := by
  intro al
  induction al with
  | nil =>
      intro st _
      exact ⟨[], by simp, by simp, by simp, fun h => h, by simp, by simp⟩
  | cons a al ih =>
      intro st hal
      rcases scSym_facts A c st a with ⟨ext₁, hseen₁, hqueue₁, hndext₁, hfresh₁, v, hv, htrans₁⟩
      rcases ih (scSym A c st a) (fun b hb => hal b (by simp [hb])) with
        ⟨ext₂, hseen₂, hqueue₂, hsub₂, hnd₂, hkey₂, hmem₂⟩
      rw [List.foldl_cons]
      refine ⟨ext₁ ++ ext₂, ?_, ?_, ?_, ?_, ?_, ?_⟩
      · rw [hseen₂, hseen₁, List.append_assoc]
      · rw [hqueue₂, hqueue₁, List.append_assoc]
      · intro x hx
        rcases List.mem_append.mp hx with hx | hx
        · exact (hfresh₁ x hx).1
        · exact hsub₂ x hx
      · intro hnd
        refine hnd₂ ?_
        rw [hseen₁, List.nodup_append]
        exact ⟨hnd, hndext₁, fun x hx hx' => (hfresh₁ x hx').2 hx⟩
      · intro k
        rw [hkey₂, htrans₁, lookupT_insertT_isSome]
        constructor
        · rintro (⟨b, hb, rfl⟩ | rfl | h)
          · exact Or.inl ⟨b, by simp [hb], rfl⟩
          · exact Or.inl ⟨a, by simp, rfl⟩
          · exact Or.inr h
        · rintro (⟨b, hb, rfl⟩ | h)
          · rcases List.mem_cons.mp hb with rfl | hb
            · exact Or.inr (Or.inl rfl)
            · exact Or.inl ⟨b, hb, rfl⟩
          · exact Or.inr (Or.inr h)
      · intro p hp
        rcases hmem₂ p hp with hp' | ⟨b, hb, w, hw, hwlen⟩
        · rw [htrans₁] at hp'
          rcases mem_insertT hp' with hp'' | rfl
          · exact Or.inl hp''
          · exact Or.inr ⟨a, by simp, v, rfl, hv⟩
        · exact Or.inr ⟨b, by simp [hb], w, hw, hwlen⟩

/-- Loop invariant of the subset construction: discovered composites are
duplicate-free canonical sublists of the candidate universe, the queue
holds discovered composites without duplicates, every discovered composite
no longer queued already has a transition entry for every alphabet symbol,
and every built entry is a singleton destination keyed by a composite
label and an alphabet symbol. -/
def SCInv (A : FA) (st : SC) : Prop :=
  st.seen.Nodup ∧
  (∀ c ∈ st.seen, c.Sublist (scU A)) ∧
  (∀ c ∈ st.queue, c ∈ st.seen) ∧
  st.queue.Nodup ∧
  (∀ c ∈ st.seen, c ∉ st.queue → ∀ a ∈ A.alphabet,
      (lookupT st.trans (V.subsetSym c, a)).isSome = true) ∧
  (∀ p ∈ st.trans, p.2.dedup.length ≤ 1 ∧ p.1.2 ∈ A.alphabet ∧ ∃ d, p.1.1 = V.subsetSym d)

/-- Termination measure of the subset-construction loop. -/
def scPhi (A : FA) (st : SC) : Nat :=
  st.queue.length + (2 ^ (scU A).length - st.seen.length)

lemma seen_length_le (A : FA) {seen : List (List V)} (h1 : seen.Nodup)
    (h2 : ∀ c ∈ seen, c.Sublist (scU A)) :
    seen.length ≤ 2 ^ (scU A).length := by
  have hsub : seen ⊆ (scU A).sublists := fun c hc => List.mem_sublists.mpr (h2 c hc)
  have := (h1.subperm hsub).length_le
  simpa [List.length_sublists] using this

lemma scProc_inv (A : FA) (st : SC) (c : List V) (rest : List (List V))
    (hq : st.queue = c :: rest) (hinv : SCInv A st) :
    SCInv A (scProc A c { st with queue := rest }) ∧
    scPhi A (scProc A c { st with queue := rest }) + 1 = scPhi A st := by
  obtain ⟨hnd, hsubl, hqsub, hqnd, hkeys, hvals⟩ := hinv
  rcases scProcAux A c A.alphabet { st with queue := rest } (fun a ha => ha) with
    ⟨ext, hseen, hqueue, hext, hndp, hkey, hmem⟩
  simp only [scProc] at *
  have hseen' : (A.alphabet.foldl (scSym A c) { st with queue := rest }).seen
      = st.seen ++ ext := hseen
  have hqueue' : (A.alphabet.foldl (scSym A c) { st with queue := rest }).queue
      = rest ++ ext := hqueue
  have hnd₁ : (st.seen ++ ext).Nodup := by
    rw [← hseen']
    exact hndp hnd
  have hextnd : ext.Nodup := (List.nodup_append.mp hnd₁).2.1
  have hdisj : st.seen.Disjoint ext := (List.nodup_append.mp hnd₁).2.2
  have hrest_sub : ∀ x ∈ rest, x ∈ st.seen := fun x hx => hqsub x (by simp [hq, hx])
  constructor
  · refine ⟨by rw [hseen']; exact hnd₁, ?_, ?_, ?_, ?_, ?_⟩
    · intro d hd
      rw [hseen'] at hd
      rcases List.mem_append.mp hd with hd | hd
      · exact hsubl d hd
      · exact hext d hd
    · intro d hd
      rw [hqueue'] at hd
      rw [hseen']
      rcases List.mem_append.mp hd with hd | hd
      · exact List.mem_append.mpr (Or.inl (hrest_sub d hd))
      · exact List.mem_append.mpr (Or.inr hd)
    · rw [hqueue', List.nodup_append]
      refine ⟨(List.nodup_cons.mp (hq ▸ hqnd)).2, hextnd, ?_⟩
      intro x hx
      exact fun hx' => hdisj (hrest_sub x hx) hx'
    · intro d hd hdq a ha
      rw [hseen'] at hd
      rw [hqueue'] at hdq
      rcases List.mem_append.mp hd with hd | hd
      · by_cases hdc : d = c
        · subst hdc
          exact (hkey (V.subsetSym d, a)).mpr (Or.inl ⟨a, ha, rfl⟩)
        · have hdq' : d ∉ st.queue := by
            rw [hq]
            intro hmem'
            rcases List.mem_cons.mp hmem' with rfl | hmem'
            · exact hdc rfl
            · exact hdq (List.mem_append.mpr (Or.inl hmem'))
          exact (hkey (V.subsetSym d, a)).mpr (Or.inr (hkeys d hd hdq' a ha))
      · exact absurd (List.mem_append.mpr (Or.inr hd)) hdq
    · intro p hp
      rcases hmem p hp with hp' | ⟨a, ha, v, rfl, hvlen⟩
      · exact hvals p hp'
      · exact ⟨hvlen, ha, c, rfl⟩
  · have hs_le : st.seen.length ≤ 2 ^ (scU A).length := seen_length_le A hnd hsubl
    have hs_le' : st.seen.length + ext.length ≤ 2 ^ (scU A).length := by
      have := seen_length_le A hnd₁ (by
        intro d hd
        rcases List.mem_append.mp hd with hd | hd
        · exact hsubl d hd
        · exact hext d hd)
      simpa using this
    unfold scPhi
    rw [hqueue', hseen', hq]
    simp only [List.length_append, List.length_cons]
    omega

lemma scLoop_inv (A : FA) :
    ∀ (fuel : Nat) (st : SC), SCInv A st → scPhi A st ≤ fuel →
      (scLoop A fuel st).queue = [] ∧ SCInv A (scLoop A fuel st) := by
  intro fuel
  induction fuel with
  | zero =>
      intro st hinv hfuel
      have hq : st.queue = [] := by
        have : st.queue.length = 0 := by
          unfold scPhi at hfuel
          omega
        exact List.length_eq_zero.mp this
      exact ⟨hq, hinv⟩
  | succ n ih =>
      intro st hinv hfuel
      cases hq : st.queue with
      | nil =>
          have hred : scLoop A (n + 1) st = st := by
            simp only [scLoop, hq]
          rw [hred]
          exact ⟨hq, hinv⟩
      | cons c rest =>
          obtain ⟨hinv', hphi⟩ := scProc_inv A st c rest hq hinv
          have hred : scLoop A (n + 1) st = scLoop A n (scProc A c { st with queue := rest }) := by
            simp only [scLoop, hq]
          rw [hred]
          exact ih _ hinv' (by omega)

lemma lookupT_foldl_insertEmpty (al : List V) :
    ∀ (tr : TransL) (k : V × V),
      (lookupT (al.foldl (fun t a => insertT t (V.empty, a) [V.empty]) tr) k).isSome = true ↔
        (∃ a ∈ al, k = (V.empty, a)) ∨ (lookupT tr k).isSome = true := by
  induction al with
  | nil => intro tr k; simp
  | cons a al ih =>
      intro tr k
      rw [List.foldl_cons, ih, lookupT_insertT_isSome]
      constructor
      · rintro (⟨b, hb, rfl⟩ | rfl | h)
        · exact Or.inl ⟨b, by simp [hb], rfl⟩
        · exact Or.inl ⟨a, by simp, rfl⟩
        · exact Or.inr h
      · rintro (⟨b, hb, rfl⟩ | h)
        · rcases List.mem_cons.mp hb with rfl | hb
          · exact Or.inr (Or.inl rfl)
          · exact Or.inl ⟨b, hb, rfl⟩
        · exact Or.inr (Or.inr h)

lemma mem_foldl_insertEmpty (al : List V) :
    ∀ (tr : TransL) (p : (V × V) × List V),
      p ∈ al.foldl (fun t a => insertT t (V.empty, a) [V.empty]) tr →
        p ∈ tr ∨ ∃ a ∈ al, p = ((V.empty, a), [V.empty]) := by
  induction al with
  | nil => intro tr p hp; exact Or.inl hp
  | cons a al ih =>
      intro tr p hp
      rw [List.foldl_cons] at hp
      rcases ih _ p hp with hp' | ⟨b, hb, rfl⟩
      · rcases mem_insertT hp' with hp'' | rfl
        · exact Or.inl hp''
        · exact Or.inr ⟨a, by simp, rfl⟩
      · exact Or.inr ⟨b, by simp [hb], rfl⟩

lemma scFinishTrans_key (A : FA) (st : SC) (k : V × V) :
    (lookupT (scFinishTrans A st) k).isSome = true ↔
      (st.hasEmpty = true ∧ ∃ a ∈ A.alphabet, k = (V.empty, a)) ∨
        (lookupT st.trans k).isSome = true := by
  unfold scFinishTrans
  by_cases he : st.hasEmpty
  · rw [if_pos he, lookupT_foldl_insertEmpty]
    constructor
    · rintro (h | h)
      · exact Or.inl ⟨he, h⟩
      · exact Or.inr h
    · rintro (⟨_, h⟩ | h)
      · exact Or.inl h
      · exact Or.inr h
  · rw [if_neg he]
    constructor
    · exact Or.inr
    · rintro (⟨h, _⟩ | h)
      · exact absurd h he
      · exact h

lemma scFinishTrans_mem (A : FA) (st : SC) (p : (V × V) × List V)
    (hp : p ∈ scFinishTrans A st) :
    p ∈ st.trans ∨ ∃ a ∈ A.alphabet, p = ((V.empty, a), [V.empty]) := by
  unfold scFinishTrans at hp
  by_cases he : st.hasEmpty
  · rw [if_pos he] at hp
    exact mem_foldl_insertEmpty A.alphabet st.trans p hp
  · rw [if_neg he] at hp
    exact Or.inl hp

lemma scInit_inv (A : FA) : SCInv A (scInit A) := by
  refine ⟨by simp [scInit], ?_, ?_, by simp [scInit], ?_, by simp [scInit]⟩
  · intro c hc
    simp only [scInit, List.mem_singleton] at hc
    subst hc
    rw [List.singleton_sublist]
    simp [scU, List.mem_dedup]
  · intro c hc
    simpa [scInit] using hc
  · intro c hc hcq
    exact absurd (by simpa [scInit] using hc) (by simpa [scInit] using hcq)

lemma subsetConstruct_type (A : FA) (hε : V.epsilon ∉ A.alphabet) :
    (subsetConstruct A).type = .dfa := by
  have hfuel : scPhi A (scInit A) ≤ scFuel A := by
    have h1 : 1 ≤ 2 ^ (scU A).length := Nat.one_le_two_pow
    unfold scPhi scInit scFuel
    simp only [List.length_singleton]
    omega
  obtain ⟨hqnil, hnd, hsubl, hqsub, hqnd, hkeys, hvals⟩ :
      (scLoop A (scFuel A) (scInit A)).queue = [] ∧ SCInv A (scLoop A (scFuel A) (scInit A)) := by
    obtain ⟨h1, h2⟩ := scLoop_inv A (scFuel A) (scInit A) (scInit_inv A) hfuel
    exact ⟨h1, h2⟩
  have htr : (subsetConstruct A).transitions
      = scFinishTrans A (scLoop A (scFuel A) (scInit A)) := rfl
  have hst : (subsetConstruct A).states
      = (scLoop A (scFuel A) (scInit A)).seen.map V.subsetSym ++
        (if (scLoop A (scFuel A) (scInit A)).hasEmpty then [V.empty] else []) := rfl
  have hal : (subsetConstruct A).alphabet = A.alphabet := rfl
  unfold FA.type getType
  have hc1 : ((subsetConstruct A).transitions.any fun p => decide (p.1.2 = V.epsilon)) = false := by
    rw [List.any_eq_false]
    intro p hp
    simp only [decide_eq_true_eq]
    rw [htr] at hp
    rcases scFinishTrans_mem A _ p hp with hp' | ⟨a, ha, rfl⟩
    · rcases hvals p hp' with ⟨_, hmem, _⟩
      exact fun hcon => hε (hcon ▸ hmem)
    · exact fun hcon => hε (by simpa using hcon ▸ ha)
  rw [if_neg (by simp [hc1])]
  have hc2 : (((subsetConstruct A).transitions.all fun p => decide (p.2.dedup.length ≤ 1)) &&
      isTotal (subsetConstruct A)) = true := by
    rw [Bool.and_eq_true]
    constructor
    · rw [List.all_eq_true]
      intro p hp
      rw [htr] at hp
      rcases scFinishTrans_mem A _ p hp with hp' | ⟨a, _, rfl⟩
      · exact decide_eq_true (hvals p hp').1
      · exact decide_eq_true (by simp)
    · unfold isTotal
      rw [List.all_eq_true]
      intro s hsmem
      rw [List.all_eq_true]
      intro a ha
      rw [hal] at ha
      have hkey : (lookupT (subsetConstruct A).transitions (s, a)).isSome = true := by
        rw [htr, scFinishTrans_key]
        rw [hst] at hsmem
        rcases List.mem_append.mp hsmem with hsmem | hsmem
        · rcases List.mem_map.mp hsmem with ⟨c, hc, rfl⟩
          exact Or.inr (hkeys c hc (by simp [hqnil]) a ha)
        · by_cases he : (scLoop A (scFuel A) (scInit A)).hasEmpty
          · rw [if_pos he] at hsmem
            rcases List.mem_singleton.mp hsmem with rfl
            exact Or.inl ⟨he, a, ha, rfl⟩
          · rw [if_neg he] at hsmem
            simp at hsmem
      exact lookupT_isSome_iff_any.mp hkey
  rw [if_pos hc2]

lemma removeEps_alphabet (A : FA) : (removeEps A).alphabet = A.alphabet := by
  unfold removeEps
  split_ifs <;> rfl

lemma removeEps_key_symbols (A : FA) (h : A.type = .epsilonNfa) :
    ∀ p ∈ (removeEps A).transitions, p.1.2 ∈ A.alphabet := by
  intro p hp
  rw [removeEps_transitions A h] at hp
  rcases List.mem_append.mp hp with hp | hp
  · rcases List.mem_map.mp hp with ⟨q, hq, rfl⟩
    have hq' := List.mem_of_mem_filter hq
    rcases List.mem_flatMap.mp hq' with ⟨s, _, hq''⟩
    rcases List.mem_map.mp hq'' with ⟨a, ha, rfl⟩
    simpa using ha
  · rcases List.mem_flatMap.mp hp with ⟨s, _, hp'⟩
    rcases List.mem_map.mp hp' with ⟨a, ha, rfl⟩
    simpa using ha

lemma removeEps_type_ne_eps (A : FA) (hε : V.epsilon ∉ A.alphabet)
    (h : A.type = .epsilonNfa) : (removeEps A).type ≠ .epsilonNfa := by
  unfold FA.type getType
  have hc1 : ((removeEps A).transitions.any fun p => decide (p.1.2 = V.epsilon)) = false := by
    rw [List.any_eq_false]
    intro p hp
    simp only [decide_eq_true_eq]
    exact fun hcon => hε (hcon ▸ removeEps_key_symbols A h p hp)
  rw [if_neg (by simp [hc1])]
  split_ifs <;> simp

/-- C4: for every automaton whose alphabet does not declare `EPSILON`,
`determinize` returns an automaton classified `dfa`; on an automaton
already classified `dfa` it returns the receiver unchanged; and a second
`determinize` therefore accepts exactly the same words as the first. -/
theorem c4_determinize_idempotent (A : FA) (w : List V) (hε : V.epsilon ∉ A.alphabet) :
    (determinize A).type = .dfa ∧
    (A.type = .dfa → determinize A = A) ∧
    acceptsFA (determinize (determinize A)) w = acceptsFA (determinize A) w := by
  have hid : ∀ B : FA, B.type = .dfa → determinize B = B := by
    intro B hB
    unfold determinize
    rw [hB]
  have hdfa : (determinize A).type = .dfa := by
    cases hA : A.type with
    | dfa =>
        rw [hid A hA]
        exact hA
    | nfa =>
        have hd : determinize A = subsetConstruct A := by
          unfold determinize
          rw [hA]
        rw [hd]
        exact subsetConstruct_type A hε
    | epsilonNfa =>
        have hne := removeEps_type_ne_eps A hε hA
        cases hB : (removeEps A).type with
        | dfa =>
            have hd : determinize A = removeEps A := by
              unfold determinize
              rw [hA, hB]
            rw [hd]
            exact hB
        | nfa =>
            have hd : determinize A = subsetConstruct (removeEps A) := by
              unfold determinize
              rw [hA, hB]
            rw [hd]
            exact subsetConstruct_type (removeEps A) (by rw [removeEps_alphabet]; exact hε)
        | epsilonNfa => exact absurd hB hne
  refine ⟨hdfa, hid A, ?_⟩
  rw [hid (determinize A) hdfa]

/-- Witness for C4 at the concrete NFA `N1` and the word "a". -/
theorem c4_determinize_idempotent_witness :
    V.epsilon ∉ N1.alphabet ∧
    ((determinize N1).type = .dfa ∧
     (N1.type = .dfa → determinize N1 = N1) ∧
     acceptsFA (determinize (determinize N1)) [V.str "a"] =
       acceptsFA (determinize N1) [V.str "a"]) :=
  ⟨by decide, c4_determinize_idempotent N1 [V.str "a"] (by decide)⟩
